import Mathlib

/-!
Verification of the `ratio-hub/time` duration library.

The TypeScript source (src/parse.ts, src/format.ts, src/time.ts,
src/duration.ts) is shallowly embedded below.  JavaScript numbers are
modelled as rationals (`ℚ`); all arithmetic performed by the library on
the inputs appearing in this development is exact in double precision,
so the rational model agrees with the JavaScript semantics.  Strings are
modelled as `List Char` internally, with `String` wrappers at the API
boundary.  Thrown exceptions are modelled with `Except`.

The standard `ℚ` arithmetic operations do not evaluate inside the Lean
kernel, so the embedding computes with `mkRat`-based helpers (`ratAdd`,
`ratMul`, ...) that are proved equal to the standard operations by the
`rat*_eq` bridge lemmas immediately below; every theorem statement uses
the standard operations.
-/

namespace TimeLib

/-! ## Kernel-computable rational arithmetic -/

def ratAdd (a b : ℚ) : ℚ := mkRat (a.num * b.den + b.num * a.den) (a.den * b.den)

def ratMul (a b : ℚ) : ℚ := mkRat (a.num * b.num) (a.den * b.den)

def ratNeg (a : ℚ) : ℚ := mkRat (-a.num) a.den

def ratSub (a b : ℚ) : ℚ := ratAdd a (ratNeg b)

def ratInv (a : ℚ) : ℚ :=
  if a.num = 0 then mkRat 0 1
  else if a.num < 0 then mkRat (-(a.den : ℤ)) a.num.natAbs
  else mkRat (a.den : ℤ) a.num.natAbs

def ratDiv (a b : ℚ) : ℚ := ratMul a (ratInv b)

/-- Model of JavaScript `Math.abs`. -/
def ratAbs (a : ℚ) : ℚ := if a.num < 0 then ratNeg a else a

/-- Model of JavaScript `Math.floor` (result is an integer). -/
def ratFloor (a : ℚ) : ℤ := a.num / (a.den : ℤ)

/-- Boolean `a <= b` on the rational model of JavaScript numbers. -/
def ratLe (a b : ℚ) : Bool := decide (a.num * (b.den : ℤ) ≤ b.num * (a.den : ℤ))

/-- Boolean `a < b` on the rational model of JavaScript numbers. -/
def ratLt (a b : ℚ) : Bool := decide (a.num * (b.den : ℤ) < b.num * (a.den : ℤ))

/-! ## Character classes (JavaScript regex classes used by parse.ts) -/

/-- Model of the JavaScript `\s` class restricted to the ASCII whitespace
characters (space 32, tab 9, line feed 10, carriage return 13, vertical
tab 11, form feed 12); these are the only whitespace characters relevant
here.  Characters are compared through their code points. -/
def jsIsSpace (c : Char) : Bool :=
  c.toNat = 32 || c.toNat = 9 || c.toNat = 10 || c.toNat = 13 ||
  c.toNat = 11 || c.toNat = 12

/-- Model of the regex class `\d` = `[0-9]` (code points 48-57). -/
def isDigitC (c : Char) : Bool :=
  48 ≤ c.toNat && c.toNat ≤ 57

/-- Model of the regex class `[a-zA-Z]` (code points 97-122 and 65-90). -/
def isAlphaC (c : Char) : Bool :=
  (97 ≤ c.toNat && c.toNat ≤ 122) || (65 ≤ c.toNat && c.toNat ≤ 90)

/-- Model of JavaScript `String.prototype.toLowerCase` on one character
(only ASCII letters occur in the unit tokens considered): `A`-`Z` (65-90)
shift by 32, everything else is unchanged. -/
def toLowerC (c : Char) : Char :=
  if 65 ≤ c.toNat && c.toNat ≤ 90 then Char.ofNat (c.toNat + 32) else c

/-- Lowercasing of a whole token (`unitStr.toLowerCase()`). -/
def toLowerL (l : List Char) : List Char :=
  l.map toLowerC

/-! ## Trimming (JavaScript `String.prototype.trim`) -/

/-- Drop whitespace from the front of the character list. -/
def ltrim (l : List Char) : List Char :=
  l.dropWhile jsIsSpace

/-- Drop whitespace from the back of the character list. -/
def rtrim : List Char → List Char
  | [] => []
  | c :: l =>
    match rtrim l with
    | [] => if jsIsSpace c then [] else [c]
    | r => c :: r

/-- Model of `str.trim()`: whitespace removed from both ends. -/
def trim (l : List Char) : List Char :=
  ltrim (rtrim l)

/-! ## Numeric text (JavaScript `parseFloat`) -/

/-- Numeric value of a list of decimal digit characters. -/
def digitsVal (l : List Char) : ℕ :=
  l.foldl (fun a c => 10 * a + (c.toNat - 48)) 0

/-- Split an optional leading sign as `parseFloat` reads it: the flag
records a leading `-`. -/
def parseFloatSign (t : List Char) : Bool × List Char :=
  match t with
  | '-' :: r => (true, r)
  | '+' :: r => (false, r)
  | _ => (false, t)

/-- The numeric value read by `parseFloat`: integer digits, fractional
digits and the sign flag. -/
def parseFloatVal (neg : Bool) (ds fs : List Char) : ℚ :=
  let v : ℚ := ratAdd (mkRat (digitsVal ds) 1) (mkRat (digitsVal fs) (10 ^ fs.length))
  if neg then ratNeg v else v

/-- Model of JavaScript `parseFloat`, restricted to the sign / digits /
decimal-point grammar (no exponents, which never reach `parseFloat` in
this library): skip leading whitespace, read an optional sign, then the
longest prefix of the form `digits [. digits]` or `. digits`; `none`
models `NaN`. -/
def jsParseFloat (l : List Char) : Option ℚ :=
  let t := l.dropWhile jsIsSpace
  let signed := parseFloatSign t
  let ds := signed.2.takeWhile isDigitC
  let t₂ := signed.2.drop ds.length
  match t₂ with
  | '.' :: r =>
    let fs := r.takeWhile isDigitC
    if ds.isEmpty && fs.isEmpty then none
    else some (parseFloatVal signed.1 ds fs)
  | _ => if ds.isEmpty then none else some (parseFloatVal signed.1 ds [])

/-! ## Unit constants (src/parse.ts lines 6-12) -/

def MS_PER_SECOND : ℚ := mkRat 1000 1
def MS_PER_MINUTE : ℚ := ratMul MS_PER_SECOND (mkRat 60 1)
def MS_PER_HOUR : ℚ := ratMul MS_PER_MINUTE (mkRat 60 1)
def MS_PER_DAY : ℚ := ratMul MS_PER_HOUR (mkRat 24 1)
def MS_PER_WEEK : ℚ := ratMul MS_PER_DAY (mkRat 7 1)

/-- `MS_PER_DAY * 365.25` (the literal `365.25` is the rational 36525/100). -/
def MS_PER_YEAR : ℚ := ratMul MS_PER_DAY (mkRat 36525 100)

def MS_PER_MONTH : ℚ := ratDiv MS_PER_YEAR (mkRat 12 1)

/-! ## Unit table (src/parse.ts `UNIT_MAP`) -/

/-- The key/multiplier pairs of `UNIT_MAP`, in source order. -/
def UNIT_MAP : List (List Char × ℚ) :=
  [ ("milliseconds".data, 1), ("millisecond".data, 1), ("msecs".data, 1),
    ("msec".data, 1), ("ms".data, 1),
    ("seconds".data, MS_PER_SECOND), ("second".data, MS_PER_SECOND),
    ("secs".data, MS_PER_SECOND), ("sec".data, MS_PER_SECOND),
    ("s".data, MS_PER_SECOND),
    ("minutes".data, MS_PER_MINUTE), ("minute".data, MS_PER_MINUTE),
    ("mins".data, MS_PER_MINUTE), ("min".data, MS_PER_MINUTE),
    ("m".data, MS_PER_MINUTE),
    ("hours".data, MS_PER_HOUR), ("hour".data, MS_PER_HOUR),
    ("hrs".data, MS_PER_HOUR), ("hr".data, MS_PER_HOUR),
    ("h".data, MS_PER_HOUR),
    ("days".data, MS_PER_DAY), ("day".data, MS_PER_DAY),
    ("d".data, MS_PER_DAY),
    ("weeks".data, MS_PER_WEEK), ("week".data, MS_PER_WEEK),
    ("w".data, MS_PER_WEEK),
    ("months".data, MS_PER_MONTH), ("month".data, MS_PER_MONTH),
    ("mo".data, MS_PER_MONTH),
    ("years".data, MS_PER_YEAR), ("year".data, MS_PER_YEAR),
    ("yrs".data, MS_PER_YEAR), ("yr".data, MS_PER_YEAR),
    ("y".data, MS_PER_YEAR) ]

/-- Lookup `UNIT_MAP[unit]` (JavaScript object property access; keys are
unique so first-match lookup is equivalent). -/
def unitLookup (k : List Char) : Option ℚ :=
  (UNIT_MAP.find? (fun p => p.1 == k)).map (·.2)

/-! ## Error taxonomy of `parseDuration` -/

/-- The distinct `Error` values thrown by `parseDuration`; the payload is
the offending substring or token quoted in the message. -/
inductive Err where
  | emptyString : Err
  | unexpectedChars : List Char → Err
  | invalidNumber : List Char → Err
  | unknownUnit : List Char → Err
  | couldNotParse : Err
deriving DecidableEq, Repr

instance {ε α : Type} [DecidableEq ε] [DecidableEq α] : DecidableEq (Except ε α) := fun
  | .ok a, .ok b =>
    if h : a = b then .isTrue (by rw [h]) else .isFalse (by simp [h])
  | .ok _, .error _ => .isFalse (by simp)
  | .error _, .ok _ => .isFalse (by simp)
  | .error e, .error f =>
    if h : e = f then .isTrue (by rw [h]) else .isFalse (by simp [h])

/-! ## The component regex `COMPONENT_REGEX = /(-?\d+\.?\d*)\s*([a-zA-Z]*)/g`

A match of this regex at a fixed position: an optional minus sign, a
nonempty greedy digit run, an optional decimal point, a greedy digit run,
greedy whitespace and a greedy letter run.  All quantifiers are greedy
and everything after `\d+` can be empty, so the regex never backtracks
once the digit run is found. -/

/-- The optional `-?` prefix of a component match. -/
def regexSign (t : List Char) : List Char × List Char :=
  match t with
  | '-' :: r => (['-'], r)
  | _ => ([], t)

/-- The optional `\.?` after the integer digits of a component match. -/
def regexDot (t : List Char) : List Char × List Char :=
  match t with
  | '.' :: r => (['.'], r)
  | _ => ([], t)

/-- Try to match `COMPONENT_REGEX` anchored at the head of `t`.  Returns
`(numStr, unitStr, fullMatchLength)` on success. -/
def matchAt (t : List Char) : Option (List Char × List Char × ℕ) :=
  let pre := regexSign t
  let ds := pre.2.takeWhile isDigitC
  if ds.isEmpty then none
  else
    let t₂ := pre.2.drop ds.length
    let dotted := regexDot t₂
    let ds₂ := dotted.2.takeWhile isDigitC
    let t₃ := dotted.2.drop ds₂.length
    let ws := t₃.takeWhile jsIsSpace
    let t₄ := t₃.drop ws.length
    let us := t₄.takeWhile isAlphaC
    let numStr := pre.1 ++ ds ++ dotted.1 ++ ds₂
    some (numStr, us, numStr.length + ws.length + us.length)

/-- Model of `COMPONENT_REGEX.exec` searching from a position: the
leftmost match in the suffix `t`, as `(skipped, numStr, unitStr, len)`
where `skipped` counts the characters before the match. -/
def findMatch : List Char → Option (ℕ × List Char × List Char × ℕ)
  | [] =>
    match matchAt [] with
    | some m => some (0, m)
    | none => none
  | c :: rest =>
    match matchAt (c :: rest) with
    | some m => some (0, m)
    | none => (findMatch rest).map (fun r => (r.1 + 1, r.2))

/-- The `while ((match = COMPONENT_REGEX.exec(parseStr)) !== null)` loop
of `parseDuration` (src/parse.ts lines 112-152), expressed on the suffix
of `parseStr` that starts at the regex `lastIndex` (the source keeps the
local variable `lastIndex` equal to the regex `lastIndex` throughout, so
the gap slice is exactly the skipped prefix of the suffix).  Every match
consumes at least one character, so `fuel = length + 1` always suffices;
the fuel-exhausted branch is unreachable. -/
def scanLoop : ℕ → List Char → ℚ → Bool → Except Err ℚ
  | 0, _, _, _ => .error .couldNotParse
  | fuel + 1, t, totalMs, matched =>
    match findMatch t with
    | none =>
      let trailing := trim t
      if !trailing.isEmpty then .error (.unexpectedChars trailing)
      else if !matched then .error .couldNotParse
      else .ok totalMs
    | some (skip, numStr, unitStr, len) =>
      let gap := trim (t.take skip)
      if !gap.isEmpty then .error (.unexpectedChars gap)
      else
        let t' := t.drop (skip + len)
        if numStr.isEmpty then scanLoop fuel t' totalMs matched
        else
          match jsParseFloat numStr with
          | none => .error (.invalidNumber numStr)
          | some num =>
            let unitTok :=
              if (toLowerL unitStr).isEmpty then "ms".data else toLowerL unitStr
            match unitLookup unitTok with
            | none => .error (.unknownUnit unitStr)
            | some multiplier =>
              scanLoop fuel t' (ratAdd totalMs (ratMul num multiplier)) true

/-- The fast-path test `/^[\d.]+$/.test(parseStr)`. -/
def bareNumberTest (l : List Char) : Bool :=
  !l.isEmpty && l.all (fun c => isDigitC c || c == '.')

/-- Body of `parseDuration` after the sign has been stripped: the bare
number fast path (`!isNaN(parseFloat(parseStr)) && /^[\d.]+$/.test(...)`)
followed by the compound component scan. -/
def parseCore (parseStr : List Char) : Except Err ℚ :=
  match jsParseFloat parseStr, bareNumberTest parseStr with
  | some bareNumber, true => .ok bareNumber
  | _, _ => scanLoop (parseStr.length + 1) parseStr 0 false

/-- Model of `parseDuration` (src/parse.ts lines 77-155).  The
`isNegative` flag is applied to every successful return of the body, so
it is factored as a `map` over `parseCore`. -/
def parseDuration (input : String) : Except Err ℚ :=
  let str := trim input.data
  if str.isEmpty then .error .emptyString
  else
    match str with
    | '-' :: rest => (parseCore (trim rest)).map ratNeg
    | '+' :: rest => parseCore (trim rest)
    | _ => parseCore str

/-! ## Display unit descriptors (src/format.ts `UNITS`) -/

/-- One entry of the descending display-unit list: millisecond size,
short suffix, singular and plural long names. -/
structure UnitDesc where
  ms : ℚ
  short : String
  long : String
  longPlural : String
deriving DecidableEq, Repr

/-- The descending display-unit list (src/format.ts lines 24-33). -/
def UNITS : List UnitDesc :=
  [ ⟨MS_PER_YEAR, "y", "year", "years"⟩,
    ⟨MS_PER_MONTH, "mo", "month", "months"⟩,
    ⟨MS_PER_WEEK, "w", "week", "weeks"⟩,
    ⟨MS_PER_DAY, "d", "day", "days"⟩,
    ⟨MS_PER_HOUR, "h", "hour", "hours"⟩,
    ⟨MS_PER_MINUTE, "m", "minute", "minutes"⟩,
    ⟨MS_PER_SECOND, "s", "second", "seconds"⟩,
    ⟨1, "ms", "millisecond", "milliseconds"⟩ ]

/-- Model of JavaScript `Math.round` (round half toward positive
infinity). -/
def mathRound (q : ℚ) : ℤ := ratFloor (ratAdd q (mkRat 1 2))

/-- Decimal digits of the fractional part `n / d` (with `n < d`),
matching the JavaScript rendering of the terminating decimals that occur
in this library.  The fuel bounds the number of digits produced. -/
def fracDigits : ℕ → ℕ → ℕ → List Char
  | 0, _, _ => []
  | fuel + 1, n, d =>
    if n = 0 then []
    else
      let n10 := n * 10
      Char.ofNat (48 + n10 / d) :: fracDigits fuel (n10 % d) d

/-- Model of the JavaScript number-to-string conversion performed by a
template literal `${x}`, for the terminating decimals produced by this
library (e.g. `0.5` renders as `"0.5"`). -/
def jsNumToString (q : ℚ) : String :=
  let sign := if q.num < 0 then "-" else ""
  let aq := ratAbs q
  let ip := ratFloor aq
  let frNum := aq.num % (aq.den : ℤ)
  if frNum = 0 then sign ++ toString ip
  else sign ++ toString ip ++ "." ++ String.mk (fracDigits 20 frNum.toNat aq.den)

/-- The body of the `for (const unit of UNITS)` loop in `humanize`:
format `absMs` in the unit `u`. -/
def renderUnit (sign : String) (long : Bool) (absMs : ℚ) (u : UnitDesc) : String :=
  let value : ℤ := mathRound (ratDiv absMs u.ms)
  if long then
    let unitName := if value = 1 then u.long else u.longPlural
    sign ++ toString value ++ " " ++ unitName
  else
    sign ++ toString value ++ u.short

/-- The `for (const unit of UNITS)` loop of `humanize` (src/format.ts
lines 52-61): return the rendering for the first unit whose size is at
most `absMs`, or `none` if the loop falls through. -/
def humanizeLoop (absMs : ℚ) (sign : String) (long : Bool) : List UnitDesc → Option String
  | [] => none
  | u :: rest =>
    if ratLe u.ms absMs then some (renderUnit sign long absMs u)
    else humanizeLoop absMs sign long rest

/-- Model of `humanize` (src/format.ts lines 41-65).  The `long` argument
is `options?.long ?? false`. -/
def humanize (ms : ℚ) (long : Bool) : String :=
  let absMs := ratAbs ms
  let sign := if ratLt ms 0 then "-" else ""
  if absMs = 0 then (if long then "0 milliseconds" else "0ms")
  else
    match humanizeLoop absMs sign long UNITS with
    | some s => s
    | none =>
      if long then sign ++ jsNumToString absMs ++ " milliseconds"
      else sign ++ jsNumToString absMs ++ "ms"

/-- Reference formulation of the specification's description of
`humanize` on magnitudes of at least one millisecond, written from the
spec's words rather than from the code: select the first unit in the
descending list whose millisecond size is at most `|ms|`, display
`|ms| / size` rounded to the nearest integer with ties rounding up
(Mathlib's `round`), prefix `-` exactly when `ms < 0`, and in long form
use the singular name exactly when the displayed value is 1. -/
def humanizeSpec (ms : ℚ) (long : Bool) : String :=
  let absMs := |ms|
  let sign := if ms < 0 then "-" else ""
  match UNITS.find? (fun u => decide (u.ms ≤ absMs)) with
  | some u =>
    let value : ℤ := round (absMs / u.ms)
    if long then sign ++ toString value ++ " " ++ (if value = 1 then u.long else u.longPlural)
    else sign ++ toString value ++ u.short
  | none => ""

/-- Model of `formatRelative` (src/format.ts lines 73-94). -/
def formatRelative (diffMs : ℚ) (long : Bool) : String :=
  let absDiff := ratAbs diffMs
  let threshold := ratMul MS_PER_SECOND (mkRat 10 1)
  if ratLt absDiff threshold then
    if ratLe (mkRat 0 1) diffMs then (if long then "in a moment" else "in a moment")
    else (if long then "just now" else "just now")
  else
    let duration := humanize absDiff long
    if ratLt (mkRat 0 1) diffMs then "in " ++ duration
    else duration ++ " ago"

/-! ## Duration and Time value types (src/duration.ts, src/time.ts) -/

/-- The `Duration` class stores one millisecond count (its constructor
does not floor). -/
structure Duration where
  ms : ℚ
deriving DecidableEq, Repr

/-- `Duration.toMillis()`. -/
def Duration.toMillis (d : Duration) : ℚ := d.ms

/-- A `DurationInput` is a duration string or a `Duration` instance. -/
inductive DurationInput where
  | str : String → DurationInput
  | dur : Duration → DurationInput

/-- Model of `normalizeToMillis` (src/parse.ts lines 172-180). -/
def normalizeToMillis : DurationInput → Except Err ℚ
  | .str s => parseDuration s
  | .dur d => .ok d.toMillis

/-- The `Time` class stores one epoch-millisecond timestamp. -/
structure Time where
  ms : ℚ
deriving DecidableEq, Repr

namespace Time

/-- The private constructor: `this.#ms = Math.floor(ms)`. -/
def create (ms : ℚ) : Time := ⟨mkRat (ratFloor ms) 1⟩

/-- `Time.now()`; the `Date.now()` reading is passed explicitly. -/
def now (dateNowMs : ℚ) : Time := create dateNowMs

/-- `Time.seconds(unix)`. -/
def seconds (unix : ℚ) : Time := create (ratMul unix MS_PER_SECOND)

/-- `Time.millis(unix)`. -/
def millis (unix : ℚ) : Time := create unix

/-- `Time.date(d)`; the `Date` object is represented by its `getTime()`
value. -/
def date (dGetTime : ℚ) : Time := create dGetTime

/-- `Time.iso(s)`; the host `Date` parse of the ISO string is represented
by its `getTime()` value (an invalid string throws before the
constructor runs and so constructs no `Time`). -/
def iso (dGetTime : ℚ) : Time := create dGetTime

/-- `Time.in(d)` (future shortcut); named `inDur` because `in` is a Lean
keyword.  The `Date.now()` reading is passed explicitly. -/
def inDur (d : DurationInput) (dateNowMs : ℚ) : Except Err Time :=
  (normalizeToMillis d).map (fun ms => create (ratAdd dateNowMs ms))

/-- `Time.ago(d)` (past shortcut). -/
def agoDur (d : DurationInput) (dateNowMs : ℚ) : Except Err Time :=
  (normalizeToMillis d).map (fun ms => create (ratSub dateNowMs ms))

/-- `time.add(d)`. -/
def add (t : Time) (d : DurationInput) : Except Err Time :=
  (normalizeToMillis d).map (fun ms => create (ratAdd t.ms ms))

/-- `time.subtract(d)`. -/
def subtract (t : Time) (d : DurationInput) : Except Err Time :=
  (normalizeToMillis d).map (fun ms => create (ratSub t.ms ms))

/-- `time.toMillis()` (the `Milliseconds` brand is an identity). -/
def toMillis (t : Time) : ℚ := t.ms

/-- Model of `time.isWithin(duration, of?)` (src/time.ts lines 138-146);
the `of` anchor is a `Time` when present, and the `Date.now()` fallback
reading is passed explicitly. -/
def isWithin (t : Time) (duration : DurationInput) (of : Option Time)
    (dateNowMs : ℚ) : Except Err Bool :=
  (normalizeToMillis duration).map (fun w =>
    let windowMs := ratAbs w
    let anchorMs := match of with | some a => a.ms | none => dateNowMs
    let diff := ratAbs (ratSub t.ms anchorMs)
    ratLe diff windowMs)

end Time

/-! ## Single components (for the compound-additivity property)

A "valid single component" in the sense of §8 of the spec: a decimal
number written as a nonempty digit run with an optional fractional part,
immediately followed by a recognized unit token. -/

/-- A single `number + unit` component in canonical text form. -/
structure Component where
  intPart : List Char
  frac : Option (List Char)
  unit : List Char

namespace Component

/-- The numeric text of the component (what `COMPONENT_REGEX` captures as
`numStr`). -/
def numStr (c : Component) : List Char :=
  c.intPart ++ (match c.frac with | none => [] | some f => '.' :: f)

/-- The full text of the component. -/
def render (c : Component) : List Char :=
  c.numStr ++ c.unit

/-- Well-formedness: nonempty digit run, digit-only fractional part,
nonempty alphabetic unit token recognized by the unit table. -/
def wf (c : Component) : Bool :=
  !c.intPart.isEmpty && c.intPart.all isDigitC &&
  (match c.frac with | none => true | some f => f.all isDigitC) &&
  !c.unit.isEmpty && c.unit.all isAlphaC &&
  (unitLookup (toLowerL c.unit)).isSome

end Component

/-! ## Bridge lemmas: the kernel-computable rational helpers agree with
the standard rational operations -/

theorem ratAdd_eq (a b : ℚ) : ratAdd a b = a + b := by
  rw [ratAdd, Rat.mkRat_eq_divInt, Rat.divInt_eq_div]
  conv_rhs => rw [← Rat.num_div_den a, ← Rat.num_div_den b]
  rw [div_add_div _ _ (by exact_mod_cast a.den_nz) (by exact_mod_cast b.den_nz)]
  push_cast
  ring_nf

theorem ratMul_eq (a b : ℚ) : ratMul a b = a * b := by
  rw [ratMul, Rat.mkRat_eq_divInt, Rat.divInt_eq_div]
  conv_rhs => rw [← Rat.num_div_den a, ← Rat.num_div_den b]
  rw [div_mul_div_comm]
  push_cast
  ring_nf

theorem ratNeg_eq (a : ℚ) : ratNeg a = -a := by
  rw [ratNeg, Rat.mkRat_eq_divInt, Rat.divInt_eq_div]
  conv_rhs => rw [← Rat.num_div_den a]
  push_cast
  ring_nf

theorem ratSub_eq (a b : ℚ) : ratSub a b = a - b := by
  rw [ratSub, ratAdd_eq, ratNeg_eq, sub_eq_add_neg]

theorem ratInv_eq (a : ℚ) : ratInv a = a⁻¹ := by
  rw [ratInv]
  rcases lt_trichotomy a.num 0 with h | h | h
  · rw [if_neg (by omega), if_pos h, Rat.mkRat_eq_divInt, Rat.divInt_eq_div,
      Rat.inv_def', Rat.divInt_eq_div]
    have hcast : (a.num.natAbs : ℤ) = -a.num := by omega
    rw [hcast]
    push_cast
    rw [neg_div_neg_eq]
  · rw [if_pos h]
    have ha : a = 0 := Rat.zero_of_num_zero h
    simp [ha]
  · rw [if_neg (by omega), if_neg (by omega), Rat.mkRat_eq_divInt, Rat.divInt_eq_div,
      Rat.inv_def', Rat.divInt_eq_div]
    have hcast : (a.num.natAbs : ℤ) = a.num := by omega
    rw [hcast]

theorem ratDiv_eq (a b : ℚ) : ratDiv a b = a / b := by
  rw [ratDiv, ratMul_eq, ratInv_eq, div_eq_mul_inv]

theorem ratAbs_eq (a : ℚ) : ratAbs a = |a| := by
  rw [ratAbs]
  rcases lt_or_le a.num 0 with h | h
  · rw [if_pos h, ratNeg_eq, abs_of_neg (Rat.num_neg.mp h)]
  · rw [if_neg (by omega), abs_of_nonneg (Rat.num_nonneg.mp h)]

theorem ratFloor_eq (a : ℚ) : ratFloor a = ⌊a⌋ := by
  rw [ratFloor, Rat.floor_def]

theorem ratLe_iff (a b : ℚ) : ratLe a b = true ↔ a ≤ b := by
  rw [ratLe, decide_eq_true_eq]
  exact Rat.le_def.symm

theorem ratLt_iff (a b : ℚ) : ratLt a b = true ↔ a < b := by
  rw [ratLt, decide_eq_true_eq]
  exact Rat.lt_def.symm

/-! ## Character-class lemmas -/

theorem digit_not_ws {c : Char} (h : isDigitC c = true) : jsIsSpace c = false := by
  simp only [isDigitC, Bool.and_eq_true, decide_eq_true_eq] at h
  simp only [jsIsSpace, Bool.or_eq_false_iff, decide_eq_false_iff_not]
  omega

theorem alpha_not_ws {c : Char} (h : isAlphaC c = true) : jsIsSpace c = false := by
  simp only [isAlphaC, Bool.or_eq_true, Bool.and_eq_true, decide_eq_true_eq] at h
  simp only [jsIsSpace, Bool.or_eq_false_iff, decide_eq_false_iff_not]
  omega

theorem alpha_not_digit {c : Char} (h : isAlphaC c = true) : isDigitC c = false := by
  simp only [isAlphaC, Bool.or_eq_true, Bool.and_eq_true, decide_eq_true_eq] at h
  simp only [isDigitC, Bool.and_eq_false_iff, decide_eq_false_iff_not]
  omega

theorem digit_not_alpha {c : Char} (h : isDigitC c = true) : isAlphaC c = false := by
  simp only [isDigitC, Bool.and_eq_true, decide_eq_true_eq] at h
  simp only [isAlphaC, Bool.or_eq_false_iff, Bool.and_eq_false_iff, decide_eq_false_iff_not]
  omega

theorem digit_ne_minus {c : Char} (h : isDigitC c = true) : c ≠ '-' := by
  intro hc
  subst hc
  exact absurd h (by decide)

theorem digit_ne_plus {c : Char} (h : isDigitC c = true) : c ≠ '+' := by
  intro hc
  subst hc
  exact absurd h (by decide)

theorem digit_ne_dot {c : Char} (h : isDigitC c = true) : c ≠ '.' := by
  intro hc
  subst hc
  exact absurd h (by decide)

theorem alpha_ne_minus {c : Char} (h : isAlphaC c = true) : c ≠ '-' := by
  intro hc
  subst hc
  exact absurd h (by decide)

theorem alpha_ne_plus {c : Char} (h : isAlphaC c = true) : c ≠ '+' := by
  intro hc
  subst hc
  exact absurd h (by decide)

theorem alpha_ne_dot {c : Char} (h : isAlphaC c = true) : c ≠ '.' := by
  intro hc
  subst hc
  exact absurd h (by decide)

theorem digitOrDot_ne_minus {c : Char} (h : (isDigitC c || c == '.') = true) : c ≠ '-' := by
  intro hc
  subst hc
  exact absurd h (by decide)

theorem digitOrDot_ne_plus {c : Char} (h : (isDigitC c || c == '.') = true) : c ≠ '+' := by
  intro hc
  subst hc
  exact absurd h (by decide)

theorem digitOrDot_not_ws {c : Char} (h : (isDigitC c || c == '.') = true) : jsIsSpace c = false := by
  rcases Bool.or_eq_true_iff.mp h with h' | h'
  · exact digit_not_ws h'
  · have : c = '.' := by simpa using h'
    subst this
    decide

/-! ## List helper lemmas -/

theorem takeWhile_append_all {α : Type} (p : α → Bool) {xs : List α} (ys : List α)
    (h : ∀ a ∈ xs, p a = true) :
    (xs ++ ys).takeWhile p = xs ++ ys.takeWhile p := by
  induction xs with
  | nil => simp
  | cons a l ih =>
    have ha : p a = true := h a (List.mem_cons_self a l)
    simp only [List.cons_append, List.takeWhile_cons, ha, if_true]
    rw [ih (fun b hb => h b (List.mem_cons_of_mem a hb))]

theorem takeWhile_all_eq_self {α : Type} (p : α → Bool) {xs : List α}
    (h : ∀ a ∈ xs, p a = true) : xs.takeWhile p = xs := by
  have := takeWhile_append_all p [] h
  simpa using this

theorem takeWhile_head_false {α : Type} (p : α → Bool) {x : α} (xs : List α)
    (h : p x = false) : (x :: xs).takeWhile p = [] := by
  simp [List.takeWhile_cons, h]

/-! ## Trim lemmas -/

theorem ltrim_eq_self {l : List Char} (h : ∀ c ∈ l, jsIsSpace c = false) :
    ltrim l = l := by
  cases l with
  | nil => rfl
  | cons c r =>
    simp [ltrim, List.dropWhile_cons, h c (List.mem_cons_self c r)]

theorem rtrim_eq_self {l : List Char} (h : ∀ c ∈ l, jsIsSpace c = false) :
    rtrim l = l := by
  induction l with
  | nil => rfl
  | cons c r ih =>
    have hr : rtrim r = r := ih (fun a ha => h a (List.mem_cons_of_mem c ha))
    cases r with
    | nil => simp [rtrim, h c (List.mem_cons_self c [])]
    | cons b s =>
      rw [rtrim, hr]

theorem trim_eq_self {l : List Char} (h : ∀ c ∈ l, jsIsSpace c = false) :
    trim l = l := by
  rw [trim, rtrim_eq_self h, ltrim_eq_self h]

theorem mem_rtrim {a : Char} : ∀ {l : List Char}, a ∈ rtrim l → a ∈ l := by
  intro l
  induction l with
  | nil => simp [rtrim]
  | cons c r ih =>
    intro ha
    rw [rtrim] at ha
    revert ha
    split
    · split
      · intro ha
        exact absurd ha (List.not_mem_nil a)
      · intro ha
        simp only [List.mem_singleton] at ha
        simp [ha]
    · intro ha
      rcases List.mem_cons.mp ha with h' | h'
      · simp [h']
      · exact List.mem_cons_of_mem c (ih h')

theorem mem_ltrim {a : Char} {l : List Char} (h : a ∈ ltrim l) : a ∈ l :=
  (List.dropWhile_sublist jsIsSpace).subset h

theorem mem_trim {a : Char} {l : List Char} (h : a ∈ trim l) : a ∈ l :=
  mem_rtrim (mem_ltrim h)

theorem rtrim_idem (l : List Char) : rtrim (rtrim l) = rtrim l := by
  induction l with
  | nil => rfl
  | cons c r ih =>
    cases hr : rtrim r with
    | nil =>
      have h1 : rtrim (c :: r) = if jsIsSpace c then [] else [c] := by
        rw [rtrim, hr]
      rw [h1]
      by_cases hc : jsIsSpace c = true
      · simp [hc, rtrim]
      · simp only [hc, Bool.false_eq_true, if_false]
        rw [rtrim]
        simp [rtrim, hc]
    | cons b s =>
      have h1 : rtrim (c :: r) = c :: b :: s := by rw [rtrim, hr]
      have h2 : rtrim (b :: s) = b :: s := by rw [← hr, ih, hr]
      rw [h1, rtrim, h2]

theorem rtrim_cons_of_ne_nil {l : List Char} (c : Char) (h : rtrim l ≠ []) :
    rtrim (c :: l) = c :: rtrim l := by
  rw [rtrim]
  split
  · next heq => exact absurd heq h
  · rfl

/-! ## Reduction lemmas for the sign and dot splitters -/

theorem regexSign_cons {c : Char} (r : List Char) (h : c ≠ '-') :
    regexSign (c :: r) = ([], c :: r) := by
  unfold regexSign
  split
  · next heq =>
    rw [List.cons.injEq] at heq
    exact absurd heq.1 h
  · rfl

theorem parseFloatSign_cons {c : Char} (r : List Char) (h1 : c ≠ '-') (h2 : c ≠ '+') :
    parseFloatSign (c :: r) = (false, c :: r) := by
  unfold parseFloatSign
  split
  · next heq =>
    rw [List.cons.injEq] at heq
    exact absurd heq.1 h1
  · next heq =>
    rw [List.cons.injEq] at heq
    exact absurd heq.1 h2
  · rfl

theorem regexDot_cons {c : Char} (r : List Char) (h : c ≠ '.') :
    regexDot (c :: r) = ([], c :: r) := by
  unfold regexDot
  split
  · next heq =>
    rw [List.cons.injEq] at heq
    exact absurd heq.1 h
  · rfl

/-! ## Component well-formedness, unfolded -/

theorem Component.wf_iff (c : Component) : c.wf = true ↔
    c.intPart ≠ [] ∧ (∀ a ∈ c.intPart, isDigitC a = true) ∧
    (∀ f, c.frac = some f → ∀ a ∈ f, isDigitC a = true) ∧
    c.unit ≠ [] ∧ (∀ a ∈ c.unit, isAlphaC a = true) ∧
    (unitLookup (toLowerL c.unit)).isSome = true := by
  cases c with
  | mk ip fr un =>
    cases fr with
    | none =>
      simp [Component.wf, List.all_eq_true, List.isEmpty_iff, and_assoc]
    | some f =>
      simp [Component.wf, List.all_eq_true, List.isEmpty_iff, and_assoc]

/-! ## `jsParseFloat` on the numeric text of a component -/

theorem jsParseFloat_numStr (c : Component) (hc : c.wf = true) :
    jsParseFloat c.numStr = some (parseFloatVal false c.intPart (c.frac.getD [])) := by
  obtain ⟨hip, hipd, hfr, -, -, -⟩ := (Component.wf_iff c).mp hc
  obtain ⟨d₀, ip, hip0⟩ := List.exists_cons_of_ne_nil hip
  have hd₀ : isDigitC d₀ = true := hipd d₀ (by rw [hip0]; exact List.mem_cons_self _ _)
  cases hfrc : c.frac with
  | none =>
    have hnum : c.numStr = c.intPart ++ [] := by
      rw [Component.numStr, hfrc]
    rw [hnum, List.append_nil, jsParseFloat]
    have hnws : c.intPart.dropWhile jsIsSpace = c.intPart := by
      rw [hip0]
      simp [List.dropWhile_cons, digit_not_ws hd₀]
    rw [hnws, hip0, parseFloatSign_cons ip (digit_ne_minus hd₀) (digit_ne_plus hd₀), ← hip0]
    have hds : c.intPart.takeWhile isDigitC = c.intPart := takeWhile_all_eq_self _ hipd
    rw [hds, List.drop_length]
    simp [List.isEmpty_iff, hip, hfrc]
  | some f =>
    have hfd : ∀ a ∈ f, isDigitC a = true := hfr f hfrc
    have hnum : c.numStr = c.intPart ++ '.' :: f := by
      rw [Component.numStr, hfrc]
    rw [hnum, jsParseFloat]
    have hnws : (c.intPart ++ '.' :: f).dropWhile jsIsSpace = c.intPart ++ '.' :: f := by
      rw [hip0]
      simp [List.dropWhile_cons, digit_not_ws hd₀]
    rw [hnws, hip0, List.cons_append,
      parseFloatSign_cons _ (digit_ne_minus hd₀) (digit_ne_plus hd₀), ← List.cons_append,
      ← hip0]
    have hds : (c.intPart ++ '.' :: f).takeWhile isDigitC = c.intPart ++ [] := by
      rw [takeWhile_append_all _ _ hipd, takeWhile_head_false _ _ (by decide)]
    rw [hds, List.append_nil, List.drop_left]
    have hfs : f.takeWhile isDigitC = f := takeWhile_all_eq_self _ hfd
    simp only [hfs, List.isEmpty_iff, hip, hfrc, Option.getD_some]
    rw [if_neg (by simp [hip])]

/-! ## `matchAt` on a component followed by a digit-headed remainder -/

theorem matchAt_render (c : Component) (rest : List Char) (hc : c.wf = true)
    (hrest : rest = [] ∨ ∃ d r, rest = d :: r ∧ isDigitC d = true) :
    matchAt (c.render ++ rest) = some (c.numStr, c.unit, c.render.length) := by
  obtain ⟨hip, hipd, hfr, hun, hund, -⟩ := (Component.wf_iff c).mp hc
  obtain ⟨d₀, ip, hip0⟩ := List.exists_cons_of_ne_nil hip
  obtain ⟨u₀, us, hun0⟩ := List.exists_cons_of_ne_nil hun
  have hd₀ : isDigitC d₀ = true := hipd d₀ (by rw [hip0]; exact List.mem_cons_self _ _)
  have hu₀ : isAlphaC u₀ = true := hund u₀ (by rw [hun0]; exact List.mem_cons_self _ _)
  have hrest_alpha : rest.takeWhile isAlphaC = [] := by
    rcases hrest with h | ⟨d, r, hdr, hd⟩
    · rw [h, List.takeWhile_nil]
    · rw [hdr]
      exact takeWhile_head_false _ _ (digit_not_alpha hd)
  have hunit_tw : (c.unit ++ rest).takeWhile isAlphaC = c.unit := by
    rw [takeWhile_append_all _ _ hund, hrest_alpha, List.append_nil]
  have hipE : c.intPart.isEmpty = false := by
    cases hip' : c.intPart with
    | nil => exact absurd hip' hip
    | cons a l => rfl
  have hunit_ws : (c.unit ++ rest).takeWhile jsIsSpace = [] := by
    rw [hun0, List.cons_append]
    exact takeWhile_head_false _ _ (alpha_not_ws hu₀)
  have hds₂ : (c.unit ++ rest).takeWhile isDigitC = [] := by
    rw [hun0, List.cons_append]
    exact takeWhile_head_false _ _ (alpha_not_digit hu₀)
  have hdot : regexDot (c.unit ++ rest) = ([], c.unit ++ rest) := by
    rw [hun0, List.cons_append, regexDot_cons _ (alpha_ne_dot hu₀), ← List.cons_append, ← hun0]
  cases hfrc : c.frac with
  | none =>
    have hnumStr : c.numStr = c.intPart := by
      rw [Component.numStr, hfrc, List.append_nil]
    have hrender : c.render ++ rest = c.intPart ++ (c.unit ++ rest) := by
      rw [Component.render, hnumStr, List.append_assoc]
    have hsign : regexSign (c.intPart ++ (c.unit ++ rest)) = ([], c.intPart ++ (c.unit ++ rest)) := by
      rw [hip0, List.cons_append, regexSign_cons _ (digit_ne_minus hd₀), ← List.cons_append,
        ← hip0]
    have hds : (c.intPart ++ (c.unit ++ rest)).takeWhile isDigitC = c.intPart := by
      rw [takeWhile_append_all _ _ hipd, hds₂, List.append_nil]
    rw [hrender, matchAt]
    simp only [hsign, hds, hipE, Bool.false_eq_true, if_false, List.drop_left, hdot,
      hds₂, List.length_nil, List.drop_zero, hunit_ws, hunit_tw, List.append_nil,
      List.nil_append, hnumStr, Component.render, Option.some.injEq, Prod.mk.injEq,
      List.length_append, eq_self_iff_true, true_and, and_true]
    omega
  | some f =>
    have hfd : ∀ a ∈ f, isDigitC a = true := hfr f hfrc
    have hnumStr : c.numStr = c.intPart ++ '.' :: f := by
      rw [Component.numStr, hfrc]
    have hrender : c.render ++ rest =
        c.intPart ++ ('.' :: (f ++ (c.unit ++ rest))) := by
      rw [Component.render, hnumStr]
      simp [List.append_assoc]
    have hsign : regexSign (c.intPart ++ ('.' :: (f ++ (c.unit ++ rest)))) =
        ([], c.intPart ++ ('.' :: (f ++ (c.unit ++ rest)))) := by
      rw [hip0, List.cons_append, regexSign_cons _ (digit_ne_minus hd₀), ← List.cons_append,
        ← hip0]
    have hds : (c.intPart ++ ('.' :: (f ++ (c.unit ++ rest)))).takeWhile isDigitC =
        c.intPart := by
      rw [takeWhile_append_all _ _ hipd, takeWhile_head_false _ _ (by decide),
        List.append_nil]
    have hdsf : (f ++ (c.unit ++ rest)).takeWhile isDigitC = f := by
      rw [takeWhile_append_all _ _ hfd, hds₂, List.append_nil]
    rw [hrender, matchAt]
    simp only [hsign, hds, hipE, Bool.false_eq_true, if_false, List.drop_left, regexDot,
      hdsf, hunit_ws, hunit_tw, List.length_nil, List.drop_zero, List.append_nil,
      List.nil_append, List.singleton_append, hnumStr, Component.render,
      Option.some.injEq, Prod.mk.injEq, List.length_append, List.length_cons,
      List.cons_append, List.append_assoc, eq_self_iff_true, true_and, and_true]
    omega

/-! ## The scan loop over rendered components -/

theorem findMatch_of_matchAt {t : List Char} {m : List Char × List Char × ℕ}
    (h : matchAt t = some m) : findMatch t = some (0, m) := by
  cases t with
  | nil => simp [findMatch, h]
  | cons c r => simp [findMatch, h]

theorem trim_nil : trim [] = [] := rfl

theorem scanLoop_nil_ok (fuel : ℕ) (totalMs : ℚ) :
    scanLoop (fuel + 1) [] totalMs true = .ok totalMs := rfl

theorem render_head_digit (c : Component) (hc : c.wf = true) :
    ∃ d r, c.render = d :: r ∧ isDigitC d = true := by
  obtain ⟨hip, hipd, -, -, -, -⟩ := (Component.wf_iff c).mp hc
  obtain ⟨d₀, ip, hip0⟩ := List.exists_cons_of_ne_nil hip
  refine ⟨d₀, ip ++ (match c.frac with | none => [] | some f => '.' :: f) ++ c.unit, ?_, ?_⟩
  · rw [Component.render, Component.numStr, hip0]
    simp [List.cons_append, List.append_assoc]
  · exact hipd d₀ (by rw [hip0]; exact List.mem_cons_self _ _)

theorem render_length_pos (c : Component) (hc : c.wf = true) : 1 ≤ c.render.length := by
  obtain ⟨d, r, hdr, -⟩ := render_head_digit c hc
  rw [hdr, List.length_cons]
  omega

theorem scanLoop_component (fuel : ℕ) (c : Component) (rest : List Char)
    (totalMs : ℚ) (matched : Bool) (hc : c.wf = true)
    (hrest : rest = [] ∨ ∃ d r, rest = d :: r ∧ isDigitC d = true)
    (v mult : ℚ) (hv : jsParseFloat c.numStr = some v)
    (hm : unitLookup (toLowerL c.unit) = some mult) :
    scanLoop (fuel + 1) (c.render ++ rest) totalMs matched =
      scanLoop fuel rest (ratAdd totalMs (ratMul v mult)) true := by
  obtain ⟨hip, -, -, hun, -, -⟩ := (Component.wf_iff c).mp hc
  obtain ⟨d₀, ip, hip0⟩ := List.exists_cons_of_ne_nil hip
  obtain ⟨u₀, us, hun0⟩ := List.exists_cons_of_ne_nil hun
  have hfm : findMatch (c.render ++ rest) = some (0, c.numStr, c.unit, c.render.length) :=
    findMatch_of_matchAt (matchAt_render c rest hc hrest)
  have hnumE : c.numStr.isEmpty = false := by
    rw [Component.numStr, hip0, List.cons_append]
    rfl
  have htokE : (toLowerL c.unit).isEmpty = false := by
    rw [toLowerL, hun0, List.map_cons]
    rfl
  rw [scanLoop]
  simp only [hfm, List.take_zero, trim_nil, List.isEmpty_nil, Bool.not_true,
    Bool.false_eq_true, if_false, Nat.zero_add, List.drop_left, hnumE, hv, htokE, hm]

theorem scanLoop_single (fuel : ℕ) (c : Component) (totalMs : ℚ) (matched : Bool)
    (hc : c.wf = true) (v mult : ℚ) (hv : jsParseFloat c.numStr = some v)
    (hm : unitLookup (toLowerL c.unit) = some mult) :
    scanLoop (fuel + 1) c.render totalMs matched =
      scanLoop fuel [] (ratAdd totalMs (ratMul v mult)) true := by
  have h := scanLoop_component fuel c [] totalMs matched hc (Or.inl rfl) v mult hv hm
  rwa [List.append_nil] at h

/-! ## `parseCore` on rendered components -/

theorem bareNumberTest_false_of_alpha {l : List Char} {a : Char} (ha : a ∈ l)
    (halpha : isAlphaC a = true) : bareNumberTest l = false := by
  have hall : l.all (fun c => isDigitC c || c == '.') = false := by
    rw [List.all_eq_false]
    exact ⟨a, ha, by simp [alpha_not_digit halpha, alpha_ne_dot halpha]⟩
  rw [bareNumberTest, hall, Bool.and_false]

theorem render_unit_mem (c : Component) (hc : c.wf = true) :
    ∃ a, a ∈ c.render ∧ isAlphaC a = true := by
  obtain ⟨-, -, -, hun, hund, -⟩ := (Component.wf_iff c).mp hc
  obtain ⟨u₀, us, hun0⟩ := List.exists_cons_of_ne_nil hun
  refine ⟨u₀, ?_, hund u₀ (by rw [hun0]; exact List.mem_cons_self _ _)⟩
  rw [Component.render]
  exact List.mem_append_right _ (by rw [hun0]; exact List.mem_cons_self _ _)

theorem render_no_ws (c : Component) (hc : c.wf = true) :
    ∀ a ∈ c.render, jsIsSpace a = false := by
  obtain ⟨-, hipd, hfr, -, hund, -⟩ := (Component.wf_iff c).mp hc
  intro a ha
  rw [Component.render, Component.numStr] at ha
  rcases List.mem_append.mp ha with h1 | h2
  · rcases List.mem_append.mp h1 with h3 | h4
    · exact digit_not_ws (hipd a h3)
    · cases hfrc : c.frac with
      | none => rw [hfrc] at h4; exact absurd h4 (List.not_mem_nil a)
      | some f =>
        rw [hfrc] at h4
        rcases List.mem_cons.mp h4 with h5 | h5
        · subst h5; decide
        · exact digit_not_ws (hfr f hfrc a h5)
  · exact alpha_not_ws (hund a h2)

theorem parseCore_single (c : Component) (hc : c.wf = true) (v mult : ℚ)
    (hv : jsParseFloat c.numStr = some v) (hm : unitLookup (toLowerL c.unit) = some mult) :
    parseCore c.render = .ok (ratAdd 0 (ratMul v mult)) := by
  obtain ⟨a, hmem, halpha⟩ := render_unit_mem c hc
  have hbare : bareNumberTest c.render = false := bareNumberTest_false_of_alpha hmem halpha
  have hscan : scanLoop (c.render.length + 1) c.render 0 false =
      .ok (ratAdd 0 (ratMul v mult)) := by
    obtain ⟨k, hk⟩ : ∃ k, c.render.length = k + 1 := by
      have := render_length_pos c hc
      exact ⟨c.render.length - 1, by omega⟩
    rw [hk]
    rw [scanLoop_single (k + 1) c 0 false hc v mult hv hm]
    exact scanLoop_nil_ok k _
  rcases hpf : jsParseFloat c.render with _ | val <;>
    simp only [parseCore, hpf, hbare, hscan]

theorem parseCore_double (c₁ c₂ : Component) (hc₁ : c₁.wf = true) (hc₂ : c₂.wf = true)
    (v₁ m₁ v₂ m₂ : ℚ)
    (hv₁ : jsParseFloat c₁.numStr = some v₁) (hm₁ : unitLookup (toLowerL c₁.unit) = some m₁)
    (hv₂ : jsParseFloat c₂.numStr = some v₂) (hm₂ : unitLookup (toLowerL c₂.unit) = some m₂) :
    parseCore (c₁.render ++ c₂.render) =
      .ok (ratAdd (ratAdd 0 (ratMul v₁ m₁)) (ratMul v₂ m₂)) := by
  obtain ⟨a, hmem, halpha⟩ := render_unit_mem c₁ hc₁
  have hbare : bareNumberTest (c₁.render ++ c₂.render) = false :=
    bareNumberTest_false_of_alpha (List.mem_append_left _ hmem) halpha
  have hrest : c₁.render ++ c₂.render = [] ∨
      ∃ d r, c₂.render = d :: r ∧ isDigitC d = true := Or.inr (render_head_digit c₂ hc₂)
  have hscan : scanLoop ((c₁.render ++ c₂.render).length + 1) (c₁.render ++ c₂.render) 0 false =
      .ok (ratAdd (ratAdd 0 (ratMul v₁ m₁)) (ratMul v₂ m₂)) := by
    rw [List.length_append]
    have h1 := render_length_pos c₁ hc₁
    have h2 := render_length_pos c₂ hc₂
    rw [scanLoop_component (c₁.render.length + c₂.render.length) c₁ c₂.render 0 false hc₁
      (Or.inr (render_head_digit c₂ hc₂)) v₁ m₁ hv₁ hm₁]
    obtain ⟨k, hk⟩ : ∃ k, c₁.render.length + c₂.render.length = k + 1 :=
      ⟨c₁.render.length + c₂.render.length - 1, by omega⟩
    rw [hk, scanLoop_single k c₂ _ true hc₂ v₂ m₂ hv₂ hm₂]
    obtain ⟨k', hk'⟩ : ∃ k', k = k' + 1 := ⟨k - 1, by omega⟩
    rw [hk']
    exact scanLoop_nil_ok k' _
  rcases hpf : jsParseFloat (c₁.render ++ c₂.render) with _ | val <;>
    simp only [parseCore, hpf, hbare, hscan]

/-! ## From `parseDuration` to `parseCore` on sign-free non-blank input -/

theorem parseDuration_eq_parseCore {l : List Char} (hnws : ∀ a ∈ l, jsIsSpace a = false)
    (hd : ∃ d r, l = d :: r ∧ d ≠ '-' ∧ d ≠ '+') :
    parseDuration (String.mk l) = parseCore l := by
  obtain ⟨d, r, hl, hd1, hd2⟩ := hd
  subst hl
  show (if (trim (d :: r)).isEmpty then _ else _) = _
  rw [trim_eq_self hnws]
  rw [if_neg (by simp)]
  split
  · next heq =>
    rw [List.cons.injEq] at heq
    exact absurd heq.1 hd1
  · next heq =>
    rw [List.cons.injEq] at heq
    exact absurd heq.1 hd2
  · rfl

theorem parseDuration_single (c : Component) (hc : c.wf = true) (v mult : ℚ)
    (hv : jsParseFloat c.numStr = some v) (hm : unitLookup (toLowerL c.unit) = some mult) :
    parseDuration (String.mk c.render) = .ok (v * mult) := by
  obtain ⟨d, r, hdr, hd⟩ := render_head_digit c hc
  rw [parseDuration_eq_parseCore (render_no_ws c hc)
      ⟨d, r, hdr, digit_ne_minus hd, digit_ne_plus hd⟩,
    parseCore_single c hc v mult hv hm, ratAdd_eq, ratMul_eq, zero_add]

theorem parseDuration_double (c₁ c₂ : Component) (hc₁ : c₁.wf = true) (hc₂ : c₂.wf = true)
    (v₁ m₁ v₂ m₂ : ℚ)
    (hv₁ : jsParseFloat c₁.numStr = some v₁) (hm₁ : unitLookup (toLowerL c₁.unit) = some m₁)
    (hv₂ : jsParseFloat c₂.numStr = some v₂) (hm₂ : unitLookup (toLowerL c₂.unit) = some m₂) :
    parseDuration (String.mk (c₁.render ++ c₂.render)) = .ok (v₁ * m₁ + v₂ * m₂) := by
  obtain ⟨d, r, hdr, hd⟩ := render_head_digit c₁ hc₁
  have hnws : ∀ a ∈ c₁.render ++ c₂.render, jsIsSpace a = false := by
    intro a ha
    rcases List.mem_append.mp ha with h | h
    · exact render_no_ws c₁ hc₁ a h
    · exact render_no_ws c₂ hc₂ a h
  rw [parseDuration_eq_parseCore hnws
      ⟨d, r ++ c₂.render, by rw [hdr, List.cons_append], digit_ne_minus hd, digit_ne_plus hd⟩,
    parseCore_double c₁ c₂ hc₁ hc₂ v₁ m₁ v₂ m₂ hv₁ hm₁ hv₂ hm₂,
    ratAdd_eq, ratAdd_eq, ratMul_eq, ratMul_eq, zero_add]

theorem unitLookup_isSome_of_wf (c : Component) (hc : c.wf = true) :
    ∃ m, unitLookup (toLowerL c.unit) = some m := by
  obtain ⟨-, -, -, -, -, hsome⟩ := (Component.wf_iff c).mp hc
  exact Option.isSome_iff_exists.mp hsome

/-! ## Claim theorems -/

/-- Claim C1 (counterexample): the claim says `parseDuration` fails on every
input with a `-` or `+` after the first matched component, but on the
claim's own example `"1h-30m"` the parser succeeds with 1800000
(= 3600000 - 1800000): the component regex accepts an optional minus
sign, so `-30m` is consumed as a negative component. -/
theorem parseDuration_internal_minus_counterexample :
    parseDuration "1h-30m" = .ok 1800000 := by decide

/-- Claim C1 (amended): an internal `+` after the first component is rejected
as unexpected characters, but an internal `-` immediately followed by
digits is accepted as a new negative component (the regex permits an
optional minus on each component's number), so `"1h+30m"` errors while
`"1h-30m"` parses to 1800000. -/
theorem parseDuration_internal_sign_behavior :
    parseDuration "1h+30m" = .error (.unexpectedChars ['+']) ∧
    parseDuration "1h-30m" = .ok 1800000 := by
  constructor
  · decide
  · decide

/-- Claim C2 (counterexample): the claim says every unitless input of digits
and decimal points with more than one decimal point fails, but
`parseDuration "1.2.3"` succeeds with 1.2 (= 6/5): the fast-path test
`/^[\d.]+$/` accepts any number of dots and `parseFloat` reads the
longest valid numeric prefix `"1.2"`. -/
theorem parseDuration_multidot_counterexample :
    parseDuration "1.2.3" = .ok (6 / 5) := by
  have h : parseDuration "1.2.3" = .ok (mkRat 6 5) := by decide
  rw [h, Rat.mkRat_eq_divInt, Rat.divInt_eq_div]
  norm_num

/-- Claim C2 (amended): the bare-number fast path applies to every nonempty
sign-stripped input consisting of digits and decimal points (any number
of decimal points) on which `parseFloat` yields a number; the parser then
returns that `parseFloat` value (the longest numeric prefix) instead of
failing. -/
theorem parseDuration_bare_digits_dots (s : List Char) (hne : s ≠ [])
    (hall : s.all (fun c => isDigitC c || c == '.') = true) (q : ℚ)
    (hq : jsParseFloat s = some q) :
    parseDuration (String.mk s) = .ok q := by
  obtain ⟨d, r, rfl⟩ := List.exists_cons_of_ne_nil hne
  rw [List.all_eq_true] at hall
  have hd : (isDigitC d || d == '.') = true := hall d (List.mem_cons_self d r)
  have hnws : ∀ a ∈ d :: r, jsIsSpace a = false := fun a ha => digitOrDot_not_ws (hall a ha)
  rw [parseDuration_eq_parseCore hnws
      ⟨d, r, rfl, digitOrDot_ne_minus hd, digitOrDot_ne_plus hd⟩]
  have hbare : bareNumberTest (d :: r) = true := by
    rw [bareNumberTest]
    simp only [List.isEmpty_cons, Bool.not_false, Bool.true_and, List.all_eq_true]
    exact hall
  simp only [parseCore, hq, hbare]

/-- Claim C2 (amended, witness): the general statement applied to the concrete
input `"1.2.3"`, giving the value 1.2. -/
theorem parseDuration_bare_digits_dots_witness :
    parseDuration (String.mk ['1', '.', '2', '.', '3']) = .ok (mkRat 6 5) :=
  parseDuration_bare_digits_dots ['1', '.', '2', '.', '3'] (by decide) (by decide)
    (mkRat 6 5) (by decide)

/-- Claim C3: compound additivity.  For all well-formed single components `A`
and `B` (nonempty decimal number immediately followed by a recognized
unit token) with distinct units, if `A` and `B` each parse on their own
then the concatenation parses to the sum of their values. -/
theorem parseDuration_compound_additive (A B : Component) (hA : A.wf = true)
    (hB : B.wf = true) (_hdistinct : toLowerL A.unit ≠ toLowerL B.unit) (a b : ℚ)
    (ha : parseDuration (String.mk A.render) = .ok a)
    (hb : parseDuration (String.mk B.render) = .ok b) :
    parseDuration (String.mk (A.render ++ B.render)) = .ok (a + b) := by
  obtain ⟨mA, hmA⟩ := unitLookup_isSome_of_wf A hA
  obtain ⟨mB, hmB⟩ := unitLookup_isSome_of_wf B hB
  have hvA := jsParseFloat_numStr A hA
  have hvB := jsParseFloat_numStr B hB
  have ha' := parseDuration_single A hA _ mA hvA hmA
  have hb' := parseDuration_single B hB _ mB hvB hmB
  rw [ha] at ha'
  rw [hb] at hb'
  have haa : a = parseFloatVal false A.intPart (A.frac.getD []) * mA :=
    Except.ok.inj ha'
  have hbb : b = parseFloatVal false B.intPart (B.frac.getD []) * mB :=
    Except.ok.inj hb'

  rw [haa, hbb]
  exact parseDuration_double A B hA hB _ mA _ mB hvA hmA hvB hmB

/-- Claim C3 (witness): `"1h" ++ "30m"` parses to 3600000 + 1800000. -/
theorem parseDuration_compound_additive_witness :
    parseDuration (String.mk ((Component.mk ['1'] none ['h']).render ++
      (Component.mk ['3', '0'] none ['m']).render)) = .ok (3600000 + 1800000) :=
  parseDuration_compound_additive (Component.mk ['1'] none ['h'])
    (Component.mk ['3', '0'] none ['m']) (by decide) (by decide) (by decide)
    3600000 1800000 (by decide) (by decide)

/-- Claim C5 helper: `"1" ++ u` parses to the table value of `u` for every
nonempty alphabetic token `u` (in any letter case) that the lowercased
unit table recognizes. -/
theorem parseDuration_one_token (u : List Char) (m : ℚ) (hne : u ≠ [])
    (halpha : u.all isAlphaC = true) (hm : unitLookup (toLowerL u) = some m) :
    parseDuration (String.mk ('1' :: u)) = .ok m := by
  have hwf : (Component.mk ['1'] none u).wf = true := by
    refine (Component.wf_iff _).mpr ⟨by simp, ?_, by simp, hne, ?_, by rw [hm]; rfl⟩
    · intro a ha
      rw [List.mem_singleton] at ha
      subst ha
      decide
    · exact fun a ha => List.all_eq_true.mp halpha a ha
  have hrender : (Component.mk ['1'] none u).render = '1' :: u := by
    simp [Component.render, Component.numStr]
  have hval : parseFloatVal false ['1'] [] = 1 := by decide
  have h := parseDuration_single (Component.mk ['1'] none u) hwf _ m
    (jsParseFloat_numStr _ hwf) hm
  rw [hrender] at h
  simpa [hval] using h

/-- Claim C5: unit-table round trip.  The family constants equal the values the
claim states (month is `365.25 * 86400000 / 12`, year is
`365.25 * 86400000`), `parseDuration ("1" ++ spelling)` returns the
table's constant for every spelling in the unit table, and the same holds
for any letter-case variant of a recognized token. -/
theorem parseDuration_unit_round_trip :
    (MS_PER_SECOND = 1000 ∧ MS_PER_MINUTE = 60000 ∧ MS_PER_HOUR = 3600000 ∧
      MS_PER_DAY = 86400000 ∧ MS_PER_WEEK = 604800000 ∧
      MS_PER_MONTH = 365.25 * 86400000 / 12 ∧ MS_PER_YEAR = 365.25 * 86400000) ∧
    (∀ p ∈ UNIT_MAP, parseDuration (String.mk ('1' :: p.1)) = .ok p.2) ∧
    (∀ (u : List Char) (m : ℚ), u ≠ [] → u.all isAlphaC = true →
      unitLookup (toLowerL u) = some m → parseDuration (String.mk ('1' :: u)) = .ok m) := by
  refine ⟨⟨by decide, by decide, by decide, by decide, by decide, ?_, ?_⟩, ?_, ?_⟩
  · have h : MS_PER_MONTH = 2629800000 := by decide
    rw [h]
    norm_num
  · have h : MS_PER_YEAR = 31557600000 := by decide
    rw [h]
    norm_num
  · decide
  · exact parseDuration_one_token

/-- Claim C5 (witness): the mixed-case spelling `"1HoUrS"` parses to the hour
constant. -/
theorem parseDuration_unit_round_trip_witness :
    parseDuration (String.mk ('1' :: ['H', 'o', 'U', 'r', 'S'])) = .ok 3600000 :=
  parseDuration_unit_round_trip.2.2 ['H', 'o', 'U', 'r', 'S'] 3600000 (by decide)
    (by decide) (by decide)

/-- Claim C4: sign distributivity.  For every string `X` containing no sign
characters at all, if `X` parses to `v` then `"-" ++ X` parses to `-v`. -/
theorem trim_rtrim (l : List Char) : trim (rtrim l) = trim l := by
  rw [trim, rtrim_idem]
  rfl

theorem parseDuration_sign_distributive (X : String) (v : ℚ)
    (hsign : ∀ c ∈ X.data, c ≠ '-' ∧ c ≠ '+')
    (hX : parseDuration X = .ok v) :
    parseDuration (String.mk ('-' :: X.data)) = .ok (-v) := by
  simp only [parseDuration] at hX
  have hne : (trim X.data).isEmpty = false := by
    by_contra h
    have h' : (trim X.data).isEmpty = true := by
      revert h
      cases (trim X.data).isEmpty <;> simp
    rw [if_pos h'] at hX
    exact absurd hX (by simp)
  rw [hne] at hX
  simp only [Bool.false_eq_true, if_false] at hX
  obtain ⟨d, r, hdr⟩ := List.exists_cons_of_ne_nil
    (by intro h; rw [h] at hne; exact absurd hne (by simp) : trim X.data ≠ [])
  have hd := hsign d (mem_trim (by rw [hdr]; exact List.mem_cons_self d r))
  rw [hdr] at hX
  split at hX
  · next heq =>
    rw [List.cons.injEq] at heq
    exact absurd heq.1 hd.1
  · next heq =>
    rw [List.cons.injEq] at heq
    exact absurd heq.1 hd.2
  · have hrt : rtrim X.data ≠ [] := by
      intro h
      have : trim X.data = [] := by rw [trim, h]; rfl
      rw [this] at hne
      exact absurd hne (by simp)
    have htrim : trim ('-' :: X.data) = '-' :: rtrim X.data := by
      rw [trim, rtrim_cons_of_ne_nil _ hrt, ltrim, List.dropWhile_cons]
      simp only [show jsIsSpace '-' = false from rfl, Bool.false_eq_true, if_false]
    simp only [parseDuration, htrim, List.isEmpty_cons, Bool.false_eq_true, if_false]
    rw [show trim (rtrim X.data) = trim X.data from trim_rtrim X.data, hdr, hX]
    simp [Except.map, ratNeg_eq]

/-- Claim C4 (witness): `"-" ++ "1h30m"` parses to the negation of 5400000. -/
theorem parseDuration_sign_distributive_witness :
    parseDuration (String.mk ('-' :: "1h30m".data)) = .ok (-5400000) :=
  parseDuration_sign_distributive "1h30m" 5400000 (by decide) (by decide)

/-! ## Formatter lemmas -/

theorem ratLe_eq_decide (a b : ℚ) : ratLe a b = decide (a ≤ b) := by
  rw [ratLe, decide_eq_decide]
  exact Rat.le_def.symm

theorem ratLt_eq_decide (a b : ℚ) : ratLt a b = decide (a < b) := by
  rw [ratLt, decide_eq_decide]
  exact Rat.lt_def.symm

theorem mkRat_half : mkRat 1 2 = (1 : ℚ) / 2 := by
  rw [Rat.mkRat_eq_divInt, Rat.divInt_eq_div]
  norm_num

theorem mathRound_eq (q : ℚ) : mathRound q = round q := by
  rw [mathRound, ratFloor_eq, ratAdd_eq, mkRat_half, round_eq]

theorem humanizeLoop_eq_find (absMs : ℚ) (sign : String) (long : Bool) :
    ∀ l : List UnitDesc,
      humanizeLoop absMs sign long l =
        (l.find? (fun u => ratLe u.ms absMs)).map (renderUnit sign long absMs)
  | [] => rfl
  | u :: rest => by
    by_cases h : ratLe u.ms absMs = true
    · simp [humanizeLoop, List.find?, h]
    · have h' : ratLe u.ms absMs = false := by
        revert h
        cases ratLe u.ms absMs <;> simp
      simp [humanizeLoop, List.find?, h', humanizeLoop_eq_find absMs sign long rest]

set_option maxHeartbeats 1600000 in
theorem humanize_eq_spec_of_one_le (ms : ℚ) (long : Bool) (h1 : 1 ≤ |ms|) :
    humanize ms long = humanizeSpec ms long := by
  have hne : ¬(ratAbs ms = 0) := by
    rw [ratAbs_eq]
    intro h
    rw [h] at h1
    norm_num at h1
  have hfun : (fun u : UnitDesc => ratLe u.ms (ratAbs ms)) =
      (fun u : UnitDesc => decide (u.ms ≤ |ms|)) := by
    funext u
    rw [ratLe_eq_decide, ratAbs_eq]
  have hmem : (⟨1, "ms", "millisecond", "milliseconds"⟩ : UnitDesc) ∈ UNITS := by
    rw [UNITS]
    exact List.mem_cons_of_mem _ (List.mem_cons_of_mem _ (List.mem_cons_of_mem _
      (List.mem_cons_of_mem _ (List.mem_cons_of_mem _ (List.mem_cons_of_mem _
      (List.mem_cons_of_mem _ (List.mem_cons_self _ _)))))))
  have hsome : (UNITS.find? (fun u : UnitDesc => decide (u.ms ≤ |ms|))).isSome := by
    rw [List.find?_isSome]
    refine ⟨⟨1, "ms", "millisecond", "milliseconds"⟩, hmem, ?_⟩
    simpa using h1
  obtain ⟨u, hu⟩ := Option.isSome_iff_exists.mp hsome
  rw [humanize, humanizeSpec]
  rw [if_neg hne, humanizeLoop_eq_find, hfun, hu, Option.map_some']
  simp only [renderUnit, ratDiv_eq, mathRound_eq, ratAbs_eq, ratLt_eq_decide,
    decide_eq_true_eq]

theorem mathRound_nearest (q : ℚ) (n : ℤ) : |q - (mathRound q : ℚ)| ≤ |q - (n : ℚ)| := by
  rw [mathRound_eq]
  exact round_le q n

theorem mathRound_tie_up (n : ℤ) : mathRound ((n : ℚ) + 1 / 2) = n + 1 := by
  rw [mathRound_eq, round_eq]
  have h : (n : ℚ) + 1 / 2 + 1 / 2 = ((n + 1 : ℤ) : ℚ) := by
    push_cast
    ring
  rw [h, Int.floor_intCast]

theorem humanize_anchor_2h : humanize 5400000 false = "2h" := by decide

theorem humanize_anchor_2d : humanize 129600000 false = "2d" := by decide

theorem humanize_anchor_2hours : humanize 5400000 true = "2 hours" := by decide

theorem humanize_anchor_1hour : humanize 3600000 true = "1 hour" := by decide

/-- Claim C6: for magnitudes of at least one millisecond, `humanize` computes
exactly the specification's description (first descending unit whose size
is at most `|ms|`, value rounded to the nearest integer with ties rounding
up, `-` prefix exactly for negative input, singular long name exactly for
displayed value 1).  `mathRound` is nearest-integer rounding with ties
rounding up, and the claim's concrete anchors hold, including the long
forms exercising the singular/plural rule. -/
theorem humanize_refines_spec :
    (∀ (ms : ℚ) (long : Bool), 1 ≤ |ms| → humanize ms long = humanizeSpec ms long) ∧
    (∀ (q : ℚ) (n : ℤ), |q - (mathRound q : ℚ)| ≤ |q - (n : ℚ)|) ∧
    (∀ n : ℤ, mathRound ((n : ℚ) + 1 / 2) = n + 1) ∧
    humanize 5400000 false = "2h" ∧ humanize 129600000 false = "2d" ∧
    humanize 5400000 true = "2 hours" ∧ humanize 3600000 true = "1 hour" :=
  ⟨humanize_eq_spec_of_one_le, mathRound_nearest, mathRound_tie_up,
    humanize_anchor_2h, humanize_anchor_2d, humanize_anchor_2hours, humanize_anchor_1hour⟩

/-- Claim C6 (witness): the specification equivalence applied at the concrete
negative input -7200000 with the long option. -/
theorem humanize_refines_spec_witness :
    (1 : ℚ) ≤ |(-7200000 : ℚ)| ∧
      humanize (-7200000) true = humanizeSpec (-7200000) true :=
  ⟨by norm_num, humanize_refines_spec.1 (-7200000) true (by norm_num)⟩

/-! ## C7: formatRelative -/

theorem formatRelative_below_threshold (d : ℚ) (long : Bool) (h : |d| < 10000) :
    formatRelative d long = if 0 ≤ d then "in a moment" else "just now" := by
  have hthr : ratMul MS_PER_SECOND (mkRat 10 1) = (10000 : ℚ) := by decide
  have hz : mkRat 0 1 = (0 : ℚ) := by decide
  have hltT : ratLt (ratAbs d) (ratMul MS_PER_SECOND (mkRat 10 1)) = true := by
    rw [ratLt_eq_decide, ratAbs_eq, hthr]
    exact decide_eq_true h
  rw [formatRelative]
  simp only [hltT, if_true]
  simp only [ratLe_eq_decide, hz, decide_eq_true_eq, ite_self]

theorem formatRelative_above_threshold (d : ℚ) (long : Bool) (h : 10000 ≤ |d|) :
    formatRelative d long = if 0 ≤ d then "in " ++ humanize |d| long
      else humanize |d| long ++ " ago" := by
  have hthr : ratMul MS_PER_SECOND (mkRat 10 1) = (10000 : ℚ) := by decide
  have hz : mkRat 0 1 = (0 : ℚ) := by decide
  have hltF : ratLt (ratAbs d) (ratMul MS_PER_SECOND (mkRat 10 1)) = false := by
    rw [ratLt_eq_decide, ratAbs_eq, hthr]
    exact decide_eq_false (not_lt.mpr h)
  rw [formatRelative]
  simp only [hltF, Bool.false_eq_true, if_false]
  simp only [ratLt_eq_decide, hz, decide_eq_true_eq, ratAbs_eq]
  rcases lt_or_le d 0 with hd | hd
  · rw [if_neg (not_lt.mpr (le_of_lt hd)), if_neg (not_le.mpr hd)]
  · have hpos : 0 < d := by
      rcases lt_or_eq_of_le hd with h' | h'
      · exact h'
      · rw [← h'] at h
        norm_num at h
    rw [if_pos hpos, if_pos hd]

theorem formatRelative_anchor_9999 : formatRelative 9999 false = "in a moment" := by decide

theorem formatRelative_anchor_11000 : formatRelative 11000 false = "in 11s" := by decide

/-- Claim C7: `formatRelative` returns the fixed phrases `"in a moment"` /
`"just now"` exactly when `|diffMs| < 10000` (for either value of the
`long` option), and otherwise wraps `humanize |diffMs|` as
`"in {...}"` for non-negative and `"{...} ago"` for negative differences;
the claim's threshold anchors hold. -/
theorem formatRelative_spec :
    (∀ (d : ℚ) (long : Bool), |d| < 10000 →
      formatRelative d long = if 0 ≤ d then "in a moment" else "just now") ∧
    (∀ (d : ℚ) (long : Bool), 10000 ≤ |d| →
      formatRelative d long = if 0 ≤ d then "in " ++ humanize |d| long
        else humanize |d| long ++ " ago") ∧
    formatRelative 9999 false = "in a moment" ∧ formatRelative 11000 false = "in 11s" :=
  ⟨formatRelative_below_threshold, formatRelative_above_threshold,
    formatRelative_anchor_9999, formatRelative_anchor_11000⟩

/-- Claim C7 (witness): the general statements applied at the claim's concrete
inputs 9999 and 11000 and at a negative input. -/
theorem formatRelative_spec_witness :
    formatRelative 9999 true = "in a moment" ∧
      formatRelative (-11000) false = humanize |(-11000 : ℚ)| false ++ " ago" := by
  constructor
  · rw [formatRelative_spec.1 9999 true (by norm_num)]
    norm_num
  · rw [formatRelative_spec.2.1 (-11000) false (by norm_num)]
    norm_num

/-! ## C9: sub-millisecond magnitudes take the fallback -/

theorem humanizeLoop_none (absMs : ℚ) (sign : String) (long : Bool) :
    ∀ l : List UnitDesc, (∀ u ∈ l, ratLe u.ms absMs = false) →
      humanizeLoop absMs sign long l = none
  | [], _ => rfl
  | u :: rest, h => by
    rw [humanizeLoop, if_neg (by rw [h u (List.mem_cons_self u rest)]; simp)]
    exact humanizeLoop_none absMs sign long rest
      (fun a ha => h a (List.mem_cons_of_mem u ha))

set_option maxHeartbeats 1600000 in
/-- Claim C9: for `0 < |ms| < 1` the unit loop of `humanize` finds no unit (all
unit sizes are at least one millisecond), so the fallback renders the
unrounded absolute magnitude directly, suffixed `"ms"` (short) or
`" milliseconds"` (long) and prefixed `-` exactly for negative input;
`humanize` is a total function, so it never fails.  In particular
`humanize 0.5 = "0.5ms"`. -/
theorem humanize_submillisecond :
    (∀ (ms : ℚ) (long : Bool), 0 < |ms| → |ms| < 1 →
      humanize ms long = (if ms < 0 then "-" else "") ++ jsNumToString |ms| ++
        (if long then " milliseconds" else "ms")) ∧
    humanize (mkRat 1 2) false = "0.5ms" := by
  constructor
  · intro ms long h0 h1
    have hall : ∀ u ∈ UNITS, (1 : ℚ) ≤ u.ms := by decide
    have hloop : humanizeLoop (ratAbs ms) (if ratLt ms 0 then "-" else "") long UNITS
        = none := by
      refine humanizeLoop_none _ _ _ UNITS (fun u hu => ?_)
      rw [ratLe_eq_decide, ratAbs_eq]
      exact decide_eq_false (not_le.mpr (lt_of_lt_of_le h1 (hall u hu)))
    have hne : ¬(ratAbs ms = 0) := by
      rw [ratAbs_eq]
      intro h
      rw [h] at h0
      norm_num at h0
    rw [humanize]
    rw [if_neg hne, hloop]
    simp only [ratLt_eq_decide, decide_eq_true_eq, ratAbs_eq]
    cases long <;> simp [String.append_assoc]
  · decide

/-- Claim C9 (witness): the general statement applied at `ms = -1/2` with the
long option, giving `"-0.5 milliseconds"`. -/
theorem humanize_submillisecond_witness :
    (0 : ℚ) < |(-1 / 2 : ℚ)| ∧ (|(-1 / 2 : ℚ)| < 1) ∧
      humanize (-1 / 2) true = (if (-1 / 2 : ℚ) < 0 then "-" else "") ++
        jsNumToString |(-1 / 2 : ℚ)| ++ " milliseconds" := by
  have habs : |(-1 / 2 : ℚ)| = 1 / 2 := by
    rw [abs_of_nonpos (by norm_num)]
    norm_num
  refine ⟨by rw [habs]; norm_num, by rw [habs]; norm_num, ?_⟩
  have h := humanize_submillisecond.1 (-1 / 2) true
    (by rw [habs]; norm_num) (by rw [habs]; norm_num)
  simpa using h

/-! ## C8: the symmetric window check -/

/-- Claim C8: for every `Time` instant, duration input (string or `Duration`
instance) and anchor instant, `isWithin` returns `true` exactly when the
absolute difference between the instant and the anchor is at most the
absolute value of the duration's milliseconds. -/
theorem isWithin_iff_abs_le (t a : Time) (d : DurationInput) (w : ℚ) (dateNowMs : ℚ)
    (hw : normalizeToMillis d = .ok w) :
    Time.isWithin t d (some a) dateNowMs = .ok true ↔
      |t.toMillis - a.toMillis| ≤ |w| := by
  rw [Time.isWithin, hw]
  simp only [Except.map, Except.ok.injEq, Time.toMillis]
  rw [ratLe_eq_decide, ratAbs_eq, ratAbs_eq, ratSub_eq]
  simp [decide_eq_true_eq]

/-- Claim C8 (witness): the window check applied at concrete instants with the
string duration `"10m"` (600000 ms window, 499000 ms distance). -/
theorem isWithin_iff_abs_le_witness :
    normalizeToMillis (.str "10m") = .ok 600000 ∧
      (Time.isWithin (Time.millis 1000) (.str "10m") (some (Time.millis 500000)) 0 =
          .ok true ↔
        |(Time.millis 1000).toMillis - (Time.millis 500000).toMillis| ≤ |(600000 : ℚ)|) :=
  ⟨by decide, isWithin_iff_abs_le (Time.millis 1000) (Time.millis 500000) (.str "10m")
    600000 0 (by decide)⟩

/-! ## C10: every Time stores an integer millisecond count -/

theorem toMillis_create (x : ℚ) : ∃ n : ℤ, (Time.create x).toMillis = (n : ℚ) :=
  ⟨ratFloor x, by rw [Time.toMillis, Time.create, Rat.mkRat_one]⟩

/-- Claim C10: the private `Time` constructor floors its argument, so every
construction path (`now`, `seconds`, `millis`, `date`, `iso`, `in`,
`ago`, `add`, `subtract`) yields an instant whose `toMillis` value is an
integer, even for fractional inputs; in particular
`Time.millis(1.7).toMillis() = 1` and `Time.seconds(0.5).toMillis() = 500`. -/
theorem time_toMillis_integral :
    (∀ x : ℚ, ∃ n : ℤ, (Time.now x).toMillis = (n : ℚ)) ∧
    (∀ x : ℚ, ∃ n : ℤ, (Time.seconds x).toMillis = (n : ℚ)) ∧
    (∀ x : ℚ, ∃ n : ℤ, (Time.millis x).toMillis = (n : ℚ)) ∧
    (∀ x : ℚ, ∃ n : ℤ, (Time.date x).toMillis = (n : ℚ)) ∧
    (∀ x : ℚ, ∃ n : ℤ, (Time.iso x).toMillis = (n : ℚ)) ∧
    (∀ (d : DurationInput) (x : ℚ) (t : Time),
      Time.inDur d x = .ok t → ∃ n : ℤ, t.toMillis = (n : ℚ)) ∧
    (∀ (d : DurationInput) (x : ℚ) (t : Time),
      Time.agoDur d x = .ok t → ∃ n : ℤ, t.toMillis = (n : ℚ)) ∧
    (∀ (t : Time) (d : DurationInput) (t' : Time),
      t.add d = .ok t' → ∃ n : ℤ, t'.toMillis = (n : ℚ)) ∧
    (∀ (t : Time) (d : DurationInput) (t' : Time),
      t.subtract d = .ok t' → ∃ n : ℤ, t'.toMillis = (n : ℚ)) ∧
    (Time.millis (mkRat 17 10)).toMillis = 1 ∧
    (Time.seconds (mkRat 1 2)).toMillis = 500 := by
  refine ⟨fun x => toMillis_create x, fun x => toMillis_create _, fun x => toMillis_create x,
    fun x => toMillis_create x, fun x => toMillis_create x, ?_, ?_, ?_, ?_, by decide,
    by decide⟩
  · intro d x t h
    cases hn : normalizeToMillis d with
    | error e =>
      rw [Time.inDur, hn] at h
      exact absurd h (by simp [Except.map])
    | ok w =>
      rw [Time.inDur, hn] at h
      simp only [Except.map, Except.ok.injEq] at h
      rw [← h]
      exact toMillis_create _
  · intro d x t h
    cases hn : normalizeToMillis d with
    | error e =>
      rw [Time.agoDur, hn] at h
      exact absurd h (by simp [Except.map])
    | ok w =>
      rw [Time.agoDur, hn] at h
      simp only [Except.map, Except.ok.injEq] at h
      rw [← h]
      exact toMillis_create _
  · intro t d t' h
    cases hn : normalizeToMillis d with
    | error e =>
      rw [Time.add, hn] at h
      exact absurd h (by simp [Except.map])
    | ok w =>
      rw [Time.add, hn] at h
      simp only [Except.map, Except.ok.injEq] at h
      rw [← h]
      exact toMillis_create _
  · intro t d t' h
    cases hn : normalizeToMillis d with
    | error e =>
      rw [Time.subtract, hn] at h
      exact absurd h (by simp [Except.map])
    | ok w =>
      rw [Time.subtract, hn] at h
      simp only [Except.map, Except.ok.injEq] at h
      rw [← h]
      exact toMillis_create _

/-- Claim C10 (witness): the `add` conjunct applied with a fractional duration:
adding 1500.5 ms to epoch 0 floors to an integer 1500 ms instant. -/
theorem time_toMillis_integral_witness :
    (Time.millis 0).add (.dur (Duration.mk (mkRat 3001 2))) = .ok (Time.mk (mkRat 1500 1)) ∧
      (∃ n : ℤ, (Time.mk (mkRat 1500 1)).toMillis = (n : ℚ)) :=
  ⟨by decide, time_toMillis_integral.2.2.2.2.2.2.2.1 (Time.millis 0)
    (.dur (Duration.mk (mkRat 3001 2))) (Time.mk (mkRat 1500 1)) (by decide)⟩

end TimeLib
